import Mathlib

/-!
Shallow embedding of the winreg-rs registry-value codec (`src/types.rs`)
together with the surrounding pieces the spec describes (tag constants,
UTF-16 helpers from the crate root, and the Raw ↔ Typed codec).

Modelling conventions:
* Rust `u8`/`u16`/`u32`/`u64` values are Lean `Nat`s; hypotheses bound them
  where the width matters.
* A Rust `Vec<u8>` is a `List Nat` of bytes (each `< 256`).
* A Rust `String` is a Lean `String` (both are sequences of Unicode scalar
  values); `std`'s `encode_utf16` / `from_utf16_lossy` are modelled
  faithfully, surrogate pairs included.
* An `OsString` built by `OsString::from_wide` is modelled by the sequence
  of 16-bit code units it stores (`from_wide` / `encode_wide` are mutually
  inverse, so the unit list is a faithful representation).
* `io::Result` becomes `Except RegError`; the only error the adapters in
  `types.rs` ever construct is `werr!(ERROR_BAD_FILE_TYPE)`, which the
  spec's taxonomy calls `TypeMismatch`.
-/

/-- Error taxonomy of the spec (§7): `TypeMismatch` is the adapters'
`ERROR_BAD_FILE_TYPE`, `MalformedValue` a width/parity violation,
`UnsupportedType` an unknown tag. -/
inductive RegError where
  | typeMismatch
  | malformedValue
  | unsupportedType
deriving DecidableEq, Repr

/-- Raw wire value: a numeric type tag paired with a byte buffer
(the Rust `RegValue { bytes: Vec<u8>, vtype: DWORD }`). -/
structure RegValue where
  vtype : Nat
  bytes : List Nat
deriving DecidableEq, Repr

/-- Registry type tag `REG_NONE = 0` (from the platform enumeration the
crate re-exports; values fixed by the spec §6 table). -/
def REG_NONE : Nat := 0

/-- Registry type tag `REG_SZ = 1`. -/
def REG_SZ : Nat := 1

/-- Registry type tag `REG_EXPAND_SZ = 2`. -/
def REG_EXPAND_SZ : Nat := 2

/-- Registry type tag `REG_BINARY = 3`. -/
def REG_BINARY : Nat := 3

/-- Registry type tag `REG_DWORD = REG_DWORD_LITTLE_ENDIAN = 4`. -/
def REG_DWORD : Nat := 4

/-- Registry type tag `REG_DWORD_BIG_ENDIAN = 5`. -/
def REG_DWORD_BIG_ENDIAN : Nat := 5

/-- Registry type tag `REG_LINK = 6`. -/
def REG_LINK : Nat := 6

/-- Registry type tag `REG_MULTI_SZ = 7`. -/
def REG_MULTI_SZ : Nat := 7

/-- Registry type tag `REG_RESOURCE_LIST = 8`. -/
def REG_RESOURCE_LIST : Nat := 8

/-- Registry type tag `REG_FULL_RESOURCE_DESCRIPTOR = 9`. -/
def REG_FULL_RESOURCE_DESCRIPTOR : Nat := 9

/-- Registry type tag `REG_RESOURCE_REQUIREMENTS_LIST = 10`. -/
def REG_RESOURCE_REQUIREMENTS_LIST : Nat := 10

/-- Registry type tag `REG_QWORD = REG_QWORD_LITTLE_ENDIAN = 11`. -/
def REG_QWORD : Nat := 11

/-- The null code unit / null character used throughout the codec. -/
def nullChar : Char := Char.ofNat 0

/-- Unicode replacement character U+FFFD, produced by lossy UTF-16
decoding for invalid surrogate sequences. -/
def replacementChar : Char := Char.ofNat 0xFFFD

/-- UTF-16 encoding of one Unicode scalar value (Rust `char::encode_utf16`):
one code unit below U+10000, a surrogate pair above. -/
def utf16EncodeChar (c : Char) : List Nat :=
  let v := c.toNat
  if v < 0x10000 then [v]
  else [0xD800 + (v - 0x10000) / 0x400, 0xDC00 + (v - 0x10000) % 0x400]

/-- UTF-16 encoding of a character sequence (Rust `str::encode_utf16`). -/
def utf16Encode (cs : List Char) : List Nat :=
  cs.flatMap utf16EncodeChar

/-- Lossy UTF-16 decoding (Rust `String::from_utf16_lossy` /
`char::decode_utf16`): a well-placed surrogate pair is combined, every
unpaired surrogate becomes U+FFFD, and after a lone high surrogate the
following unit is reprocessed. -/
def utf16DecodeLossy : List Nat → List Char
  | [] => []
  | [u] =>
    if u < 0xD800 ∨ 0xE000 ≤ u then [Char.ofNat u] else [replacementChar]
  | u :: l :: rest =>
    if u < 0xD800 ∨ 0xE000 ≤ u then
      Char.ofNat u :: utf16DecodeLossy (l :: rest)
    else if u < 0xDC00 then
      if 0xDC00 ≤ l ∧ l < 0xE000 then
        Char.ofNat (0x10000 + (u - 0xD800) * 0x400 + (l - 0xDC00)) ::
          utf16DecodeLossy rest
      else
        replacementChar :: utf16DecodeLossy (l :: rest)
    else
      replacementChar :: utf16DecodeLossy (l :: rest)

/-- Modelled from the spec: `v16_to_v8` lives in the crate root (`lib.rs`),
which is not part of the provided sources. It reinterprets a `Vec<u16>` as
bytes; the wire format is little-endian UTF-16, so each unit becomes its
low byte followed by its high byte. -/
def v16_to_v8 (ws : List Nat) : List Nat :=
  ws.flatMap (fun w => [w % 256, w / 256])

/-- Inverse byte-pairing performed by the decode path in `types.rs`:
`slice::from_raw_parts(bytes.as_ptr() as *const u16, bytes.len() / 2)`
reads `len / 2` little-endian code units; a trailing odd byte is ignored. -/
def bytesToWords : List Nat → List Nat
  | b0 :: b1 :: rest => (b0 + 256 * b1) :: bytesToWords rest
  | _ => []

/-- Little-endian value of a byte list (first byte least significant). -/
def readLE : List Nat → Nat
  | [] => 0
  | b :: rest => b + 256 * readLE rest

/-- Little-endian byte serialization of `n` in exactly `k` bytes. -/
def toLEBytes : Nat → Nat → List Nat
  | 0, _ => []
  | k + 1, n => n % 256 :: toLEBytes k (n / 256)

/-- Big-endian value of a byte list (first byte most significant). -/
def readBE (bs : List Nat) : Nat :=
  readLE bs.reverse

/-- Big-endian byte serialization of `n` in exactly `k` bytes. -/
def toBEBytes (k n : Nat) : List Nat :=
  (toLEBytes k n).reverse

/-- Trailing-null trimming performed by
`while s.ends_with('\u{0}') { s.pop(); }` in the `String` adapter. -/
def trimTrailingNulls (cs : List Char) : List Char :=
  (cs.reverse.dropWhile (· == nullChar)).reverse

/-- The `String` adapter's decode direction
(`impl FromRegValue for String`, src/types.rs lines 28–45): accept
`REG_SZ`/`REG_EXPAND_SZ`/`REG_MULTI_SZ`, reinterpret `len / 2` code units
(an odd trailing byte is silently dropped), decode lossily, trim trailing
nulls, and for `REG_MULTI_SZ` replace every remaining null with `'\n'`;
any other tag is `werr!(ERROR_BAD_FILE_TYPE)`. -/
def string_from_reg_value (val : RegValue) : Except RegError String :=
  if val.vtype = REG_SZ ∨ val.vtype = REG_EXPAND_SZ ∨ val.vtype = REG_MULTI_SZ then
    let s := trimTrailingNulls (utf16DecodeLossy (bytesToWords val.bytes))
    if val.vtype = REG_MULTI_SZ then
      .ok (s.map (fun c => if c = nullChar then Char.ofNat 10 else c)).asString
    else
      .ok s.asString
  else
    .error .typeMismatch

/-- The `OsString` adapter's decode direction
(`impl FromRegValue for OsString`, src/types.rs lines 47–60): accept the
same three tags and return `OsString::from_wide` of the `len / 2` code
units, with no trimming and no substitution. The `OsString` is represented
by its code-unit sequence. -/
def osstring_from_reg_value (val : RegValue) : Except RegError (List Nat) :=
  if val.vtype = REG_SZ ∨ val.vtype = REG_EXPAND_SZ ∨ val.vtype = REG_MULTI_SZ then
    .ok (bytesToWords val.bytes)
  else
    .error .typeMismatch

/-- The `u32` adapter's decode direction (`impl FromRegValue for u32`,
src/types.rs lines 62–71): on `REG_DWORD` it performs the unchecked read
`*(val.bytes.as_ptr() as *const u32)` — four little-endian bytes with no
length validation (for a buffer shorter than 4 bytes the source reads out
of bounds; the embedding reads the available byte prefix). Any other tag
is `werr!(ERROR_BAD_FILE_TYPE)`. -/
def u32_from_reg_value (val : RegValue) : Except RegError Nat :=
  if val.vtype = REG_DWORD then
    .ok (readLE (val.bytes.take 4))
  else
    .error .typeMismatch

/-- The `u64` adapter's decode direction (`impl FromRegValue for u64`,
src/types.rs lines 73–82): on `REG_QWORD` it performs the unchecked read
`*(val.bytes.as_ptr() as *const u64)` — eight little-endian bytes with no
length validation (for a buffer shorter than 8 bytes the source reads out
of bounds; the embedding reads the available byte prefix). Any other tag
is `werr!(ERROR_BAD_FILE_TYPE)`. -/
def u64_from_reg_value (val : RegValue) : Except RegError Nat :=
  if val.vtype = REG_QWORD then
    .ok (readLE (val.bytes.take 8))
  else
    .error .typeMismatch

/-- Modelled from the spec: `to_utf16` lives in the crate root (`lib.rs`),
which is not part of the provided sources. Per §4.1 it converts the text
to UTF-16 code units and appends one trailing null code unit. -/
def to_utf16 (s : String) : List Nat :=
  utf16Encode s.data ++ [0]

/-- The `String` encode adapter (`impl ToRegValue for String`,
src/types.rs lines 92–99): `v16_to_v8(&to_utf16(self))` tagged `REG_SZ`. -/
def string_to_reg_value (s : String) : RegValue :=
  { bytes := v16_to_v8 (to_utf16 s), vtype := REG_SZ }

/-- The `&str` encode adapter (`impl ToRegValue for &str`,
src/types.rs lines 101–108): identical to the `String` one. -/
def str_to_reg_value (s : String) : RegValue :=
  { bytes := v16_to_v8 (to_utf16 s), vtype := REG_SZ }

/-- The `&OsStr` encode adapter (`impl ToRegValue for &OsStr`,
src/types.rs lines 110–117): `v16_to_v8` of `encode_wide()` — the wide
units as they are, with no trailing null appended — tagged `REG_SZ`. The
`OsStr` is represented by its code-unit sequence. -/
def osstr_to_reg_value (w : List Nat) : RegValue :=
  { bytes := v16_to_v8 w, vtype := REG_SZ }

/-- The `u32` encode adapter (`impl ToRegValue for u32`,
src/types.rs lines 119–129): the four bytes of the value in the target's
(little-endian) byte order, tagged `REG_DWORD`. -/
def u32_to_reg_value (n : Nat) : RegValue :=
  { bytes := toLEBytes 4 n, vtype := REG_DWORD }

/-- The `u64` encode adapter (`impl ToRegValue for u64`,
src/types.rs lines 131–141): the eight bytes of the value in the target's
(little-endian) byte order, tagged `REG_QWORD`. -/
def u64_to_reg_value (n : Nat) : RegValue :=
  { bytes := toLEBytes 8 n, vtype := REG_QWORD }

/-- The strongly-typed domain model (`enum StronglyTypedRegistryData`,
src/types.rs lines 168–209). Integer payloads are `Nat`s bounded by the
Rust types where a theorem needs it. -/
inductive StronglyTypedRegistryData where
  | RegNone
  | RegSz (s : String)
  | RegExpandSz (s : String)
  | RegBinary (b : List Nat)
  | RegDwordLittleEndian (n : Nat)
  | RegDwordBigEndian (n : Nat)
  | RegLink (s : String)
  | RegMultiSz (ss : List String)
  | RegResourceList (b : List Nat)
  | RegFullResourceDescriptor (b : List Nat)
  | RegResourceRequirementsList (b : List Nat)
  | RegQword (n : Nat)
deriving DecidableEq, Repr

/-- The type-tag lookup (`StronglyTypedRegistryData::discriminant`,
src/types.rs lines 211–230): a fixed function of the variant alone. -/
def StronglyTypedRegistryData.discriminant : StronglyTypedRegistryData → Nat
  | .RegNone => REG_NONE
  | .RegSz _ => REG_SZ
  | .RegExpandSz _ => REG_EXPAND_SZ
  | .RegBinary _ => REG_BINARY
  | .RegDwordLittleEndian _ => REG_DWORD
  | .RegDwordBigEndian _ => REG_DWORD_BIG_ENDIAN
  | .RegLink _ => REG_LINK
  | .RegMultiSz _ => REG_MULTI_SZ
  | .RegResourceList _ => REG_RESOURCE_LIST
  | .RegFullResourceDescriptor _ => REG_FULL_RESOURCE_DESCRIPTOR
  | .RegResourceRequirementsList _ => REG_RESOURCE_REQUIREMENTS_LIST
  | .RegQword _ => REG_QWORD

/-- Splitting a character sequence on null boundaries (the multi-string
decode step of spec §4.1); like Rust's `split`, an empty input yields one
empty piece — the caller maps the empty sequence to zero strings. -/
def splitOnNull : List Char → List (List Char)
  | [] => [[]]
  | c :: rest =>
    match splitOnNull rest with
    | [] => [[]]
    | g :: gs => if c = nullChar then [] :: g :: gs else (c :: g) :: gs

/-- Modelled from the spec: the shared UTF-16 text decode of §4.1, used by
the Raw → Typed codec (whose source, `StronglyTypedRegistryData::from_reg_value`,
is an empty TODO stub in src/types.rs lines 232–236): an odd-length buffer
is `MalformedValue`; otherwise decode the code units lossily and trim all
trailing null code units. -/
def decodeText (bytes : List Nat) : Except RegError (List Char) :=
  if bytes.length % 2 = 1 then
    .error .malformedValue
  else
    .ok (trimTrailingNulls (utf16DecodeLossy (bytesToWords bytes)))

/-- Modelled from the spec: the multi-string decode of §4.1 — split the
already null-trimmed code-unit sequence on null boundaries; a payload
representing zero strings decodes to the empty sequence. -/
def decodeMulti (cs : List Char) : List String :=
  if cs.isEmpty then [] else (splitOnNull cs).map List.asString

/-- Modelled from the spec: `decode(raw)` of §4.2 — the Raw → Typed
direction of the codec. Its source (`StronglyTypedRegistryData::from_reg_value`,
src/types.rs lines 232–236) is an empty TODO stub, so the dispatch is taken
from the spec: tag-driven, fixed widths for the integer kinds, §4.1 text
decoding for the string kinds, opaque bytes for the binary kinds, and
`UnsupportedType` for an unknown tag. -/
def StronglyTypedRegistryData.from_reg_value (val : RegValue) :
    Except RegError StronglyTypedRegistryData :=
  if val.vtype = REG_NONE then
    .ok .RegNone
  else if val.vtype = REG_SZ then
    (decodeText val.bytes).map (fun cs => .RegSz cs.asString)
  else if val.vtype = REG_EXPAND_SZ then
    (decodeText val.bytes).map (fun cs => .RegExpandSz cs.asString)
  else if val.vtype = REG_BINARY then
    .ok (.RegBinary val.bytes)
  else if val.vtype = REG_DWORD then
    if val.bytes.length = 4 then
      .ok (.RegDwordLittleEndian (readLE val.bytes))
    else
      .error .malformedValue
  else if val.vtype = REG_DWORD_BIG_ENDIAN then
    if val.bytes.length = 4 then
      .ok (.RegDwordBigEndian (readBE val.bytes))
    else
      .error .malformedValue
  else if val.vtype = REG_LINK then
    (decodeText val.bytes).map (fun cs => .RegLink cs.asString)
  else if val.vtype = REG_MULTI_SZ then
    (decodeText val.bytes).map (fun cs => .RegMultiSz (decodeMulti cs))
  else if val.vtype = REG_RESOURCE_LIST then
    .ok (.RegResourceList val.bytes)
  else if val.vtype = REG_FULL_RESOURCE_DESCRIPTOR then
    .ok (.RegFullResourceDescriptor val.bytes)
  else if val.vtype = REG_RESOURCE_REQUIREMENTS_LIST then
    .ok (.RegResourceRequirementsList val.bytes)
  else if val.vtype = REG_QWORD then
    if val.bytes.length = 8 then
      .ok (.RegQword (readLE val.bytes))
    else
      .error .malformedValue
  else
    .error .unsupportedType

/-- Modelled from the spec: the multi-string encode of §4.1 — each
string's null-terminated UTF-16 encoding in order, then one additional
terminating null code unit. -/
def encodeMulti (ss : List String) : List Nat :=
  (ss.flatMap (fun s => utf16Encode s.data ++ [0])) ++ [0]

/-- Modelled from the spec: `encode(typed)` of §4.2 — the Typed → Raw
direction of the codec, absent from src/types.rs (the
`impl ToRegValue for StronglyTypedRegistryData` block holds only the TODO
stub). It looks up the fixed tag via `discriminant` and produces bytes per
§4.1: null-terminated UTF-16 for the text kinds, fixed-width integers in
the variant's endianness, opaque bytes for the binary kinds, and an empty
buffer for `RegNone` (wire width 0). -/
def StronglyTypedRegistryData.to_reg_value (v : StronglyTypedRegistryData) :
    RegValue :=
  { vtype := v.discriminant
    bytes :=
      match v with
      | .RegNone => []
      | .RegSz s => v16_to_v8 (to_utf16 s)
      | .RegExpandSz s => v16_to_v8 (to_utf16 s)
      | .RegBinary b => b
      | .RegDwordLittleEndian n => toLEBytes 4 n
      | .RegDwordBigEndian n => toBEBytes 4 n
      | .RegLink s => v16_to_v8 (to_utf16 s)
      | .RegMultiSz ss => v16_to_v8 (encodeMulti ss)
      | .RegResourceList b => b
      | .RegFullResourceDescriptor b => b
      | .RegResourceRequirementsList b => b
      | .RegQword n => toLEBytes 8 n }

deriving instance DecidableEq for Except

/-- Every character of a Lean `String` is a valid Unicode scalar value. -/
theorem char_toNat_valid (c : Char) : Nat.isValidChar c.toNat := c.valid

/-- Evaluating `Char.ofNat` at a valid scalar value recovers the value. -/
theorem charOfNat_toNat {n : Nat} (h : n.isValidChar) : (Char.ofNat n).toNat = n := by
  simp only [Char.ofNat, h, dite_true]
  simp [Char.ofNatAux, Char.toNat, UInt32.toNat]

/-- Characters with the same scalar value are equal. -/
theorem char_eq_of_toNat_eq {a b : Char} (h : a.toNat = b.toNat) : a = b := by
  apply Char.eq_of_val_eq
  exact UInt32.toNat.inj h

/-- Rebuilding a character from its scalar value is the identity. -/
theorem charOfNat_toNat_self (c : Char) : Char.ofNat c.toNat = c := by
  apply char_eq_of_toNat_eq
  rw [charOfNat_toNat (char_toNat_valid c)]

/-- Lossy decoding consumes a non-surrogate code unit as one character. -/
theorem utf16DecodeLossy_cons_valid {v : Nat} (h : v < 0xD800 ∨ 0xE000 ≤ v)
    (t : List Nat) :
    utf16DecodeLossy (v :: t) = Char.ofNat v :: utf16DecodeLossy t := by
  cases t <;> simp [utf16DecodeLossy, h]

/-- Lossy decoding consumes a well-formed surrogate pair as one character. -/
theorem utf16DecodeLossy_cons_pair {hi lo : Nat} (h1 : 0xD800 ≤ hi)
    (h2 : hi < 0xDC00) (h3 : 0xDC00 ≤ lo) (h4 : lo < 0xE000) (t : List Nat) :
    utf16DecodeLossy (hi :: lo :: t) =
      Char.ofNat (0x10000 + (hi - 0xD800) * 0x400 + (lo - 0xDC00)) ::
        utf16DecodeLossy t := by
  have h5 : ¬(hi < 0xD800 ∨ 0xE000 ≤ hi) := by omega
  simp [utf16DecodeLossy, h5, h2, h3, h4]

/-- Lossy decoding inverts the UTF-16 encoding of one character, leaving
the remainder of the unit stream untouched. -/
theorem utf16DecodeLossy_encodeChar (c : Char) (t : List Nat) :
    utf16DecodeLossy (utf16EncodeChar c ++ t) = c :: utf16DecodeLossy t := by
  have hv := char_toNat_valid c
  rcases hv with hv | hv
  · have h1 : c.toNat < 0x10000 := by omega
    have h2 : c.toNat < 0xD800 ∨ 0xE000 ≤ c.toNat := Or.inl hv
    simp only [utf16EncodeChar, h1, if_true, List.cons_append, List.nil_append]
    rw [utf16DecodeLossy_cons_valid h2, charOfNat_toNat_self]
  · by_cases h1 : c.toNat < 0x10000
    · have h2 : c.toNat < 0xD800 ∨ 0xE000 ≤ c.toNat := by omega
      simp only [utf16EncodeChar, h1, if_true, List.cons_append, List.nil_append]
      rw [utf16DecodeLossy_cons_valid h2, charOfNat_toNat_self]
    · simp only [utf16EncodeChar, h1, if_false, List.cons_append, List.nil_append]
      rw [utf16DecodeLossy_cons_pair (by omega) (by omega) (by omega) (by omega)]
      have h3 : 0x10000 + (0xD800 + (c.toNat - 0x10000) / 0x400 - 0xD800) * 0x400 +
          (0xDC00 + (c.toNat - 0x10000) % 0x400 - 0xDC00) = c.toNat := by omega
      rw [h3, charOfNat_toNat_self]

/-- Lossy decoding inverts the UTF-16 encoding of a character sequence,
leaving the remainder of the unit stream untouched. -/
theorem utf16DecodeLossy_encode (cs : List Char) (t : List Nat) :
    utf16DecodeLossy (utf16Encode cs ++ t) = cs ++ utf16DecodeLossy t := by
  induction cs with
  | nil => simp [utf16Encode]
  | cons c cs ih =>
    simp only [utf16Encode, List.flatMap_cons, List.append_assoc]
    rw [utf16DecodeLossy_encodeChar]
    simp only [List.cons_append, List.cons.injEq, true_and]
    exact ih

/-- Pairing the bytes produced by `v16_to_v8` recovers the code units. -/
theorem bytesToWords_v16_to_v8 (ws : List Nat) (h : ∀ w ∈ ws, w < 65536) :
    bytesToWords (v16_to_v8 ws) = ws := by
  induction ws with
  | nil => rfl
  | cons w ws ih =>
    have hw : w < 65536 := h w (List.mem_cons_self w ws)
    have hstep : v16_to_v8 (w :: ws) = w % 256 :: w / 256 :: v16_to_v8 ws := by
      simp [v16_to_v8]
    rw [hstep]
    simp only [bytesToWords, List.cons.injEq]
    refine ⟨by omega, ih (fun x hx => h x (List.mem_cons_of_mem w hx))⟩

/-- The byte form of a code-unit sequence has even length. -/
theorem length_v16_to_v8 (ws : List Nat) : (v16_to_v8 ws).length = 2 * ws.length := by
  induction ws with
  | nil => rfl
  | cons w ws ih =>
    simp only [v16_to_v8, List.flatMap_cons] at ih ⊢
    simp [ih]
    omega

/-- UTF-16 code units produced for one character fit in 16 bits. -/
theorem utf16EncodeChar_lt (c : Char) : ∀ u ∈ utf16EncodeChar c, u < 65536 := by
  intro u hu
  have hv := char_toNat_valid c
  rcases hv with hv | hv
  · simp only [utf16EncodeChar] at hu
    rw [if_pos (by omega)] at hu
    simp at hu
    omega
  · by_cases h1 : c.toNat < 0x10000
    · simp only [utf16EncodeChar, if_pos h1] at hu
      simp at hu
      omega
    · simp only [utf16EncodeChar, if_neg h1] at hu
      simp at hu
      rcases hu with hu | hu <;> omega

/-- UTF-16 code units produced for a character sequence fit in 16 bits. -/
theorem utf16Encode_lt (cs : List Char) : ∀ u ∈ utf16Encode cs, u < 65536 := by
  intro u hu
  simp only [utf16Encode, List.mem_flatMap] at hu
  obtain ⟨c, _, hu⟩ := hu
  exact utf16EncodeChar_lt c u hu

/-- Reading back the little-endian serialization recovers the value. -/
theorem readLE_toLEBytes (k n : Nat) (h : n < 256 ^ k) :
    readLE (toLEBytes k n) = n := by
  induction k generalizing n with
  | zero => simp at h; simp [toLEBytes, readLE, h]
  | succ k ih =>
    simp only [toLEBytes, readLE]
    rw [ih (n / 256) (by
      have : 256 ^ (k + 1) = 256 ^ k * 256 := by ring
      omega)]
    omega

/-- The little-endian serialization emits exactly `k` bytes. -/
theorem length_toLEBytes (k n : Nat) : (toLEBytes k n).length = k := by
  induction k generalizing n with
  | zero => rfl
  | succ k ih => simp [toLEBytes, ih]

/-- Reading back the big-endian serialization recovers the value. -/
theorem readBE_toBEBytes (k n : Nat) (h : n < 256 ^ k) :
    readBE (toBEBytes k n) = n := by
  simp only [readBE, toBEBytes, List.reverse_reverse]
  exact readLE_toLEBytes k n h

/-- Trimming absorbs one trailing null code unit. -/
theorem trimTrailingNulls_append_null (cs : List Char) :
    trimTrailingNulls (cs ++ [nullChar]) = trimTrailingNulls cs := by
  simp [trimTrailingNulls, List.dropWhile_cons]

/-- Trimming is the identity when the sequence does not end in a null. -/
theorem trimTrailingNulls_of_getLast_ne {cs : List Char}
    (h : ∀ c, cs.getLast? = some c → c ≠ nullChar) :
    trimTrailingNulls cs = cs := by
  rcases hrev : cs.reverse with _ | ⟨a, t⟩
  · have : cs = [] := by
      have := congrArg List.reverse hrev
      simpa using this
    simp [this, trimTrailingNulls]
  · have hcs : cs = (a :: t).reverse := by
      have := congrArg List.reverse hrev
      simpa using this
    have hhead : cs.getLast? = some a := by
      rw [← List.head?_reverse, hrev]
      rfl
    have ha : a ≠ nullChar := h a hhead
    simp only [trimTrailingNulls, hrev, List.dropWhile_cons]
    rw [if_neg (by simpa using ha)]
    rw [← hrev, List.reverse_reverse]

/-- Splitting on nulls always produces at least one piece. -/
theorem splitOnNull_ne_nil (cs : List Char) : splitOnNull cs ≠ [] := by
  induction cs with
  | nil => simp [splitOnNull]
  | cons c rest ih =>
    simp only [splitOnNull]
    split
    · simp
    · split <;> simp

/-- Splitting after a leading null prepends an empty piece. -/
theorem splitOnNull_cons_null (cs : List Char) :
    splitOnNull (nullChar :: cs) = [] :: splitOnNull cs := by
  simp only [splitOnNull]
  rcases h : splitOnNull cs with _ | ⟨g, gs⟩
  · exact absurd h (splitOnNull_ne_nil cs)
  · simp

/-- Splitting after a non-null head extends the first piece. -/
theorem splitOnNull_cons_ne {c : Char} (hc : c ≠ nullChar) (cs : List Char) :
    splitOnNull (c :: cs) = (splitOnNull cs).modifyHead (c :: ·) := by
  simp only [splitOnNull]
  rcases h : splitOnNull cs with _ | ⟨g, gs⟩
  · exact absurd h (splitOnNull_ne_nil cs)
  · simp [hc]

/-- Splitting a null-free sequence yields that single piece. -/
theorem splitOnNull_nullfree {e : List Char} (h : ∀ c ∈ e, c ≠ nullChar) :
    splitOnNull e = [e] := by
  induction e with
  | nil => rfl
  | cons c rest ih =>
    rw [splitOnNull_cons_ne (h c (List.mem_cons_self c rest))]
    rw [ih (fun x hx => h x (List.mem_cons_of_mem c hx))]
    rfl

/-- Splitting past a null-free block extends the first piece by it. -/
theorem splitOnNull_append_nullfree {e : List Char} (h : ∀ c ∈ e, c ≠ nullChar)
    (cs : List Char) :
    splitOnNull (e ++ cs) = (splitOnNull cs).modifyHead (e ++ ·) := by
  induction e with
  | nil =>
    rcases hs : splitOnNull cs with _ | ⟨g, gs⟩
    · exact absurd hs (splitOnNull_ne_nil cs)
    · simp [hs]
  | cons c rest ih =>
    rw [List.cons_append, splitOnNull_cons_ne (h c (List.mem_cons_self c rest)),
      ih (fun x hx => h x (List.mem_cons_of_mem c hx))]
    rcases hs : splitOnNull cs with _ | ⟨g, gs⟩
    · exact absurd hs (splitOnNull_ne_nil cs)
    · simp

/-- Null-separated interior join of multi-string entries: the shape the
wire payload has after trailing-null trimming. -/
def midJoin : List (List Char) → List Char
  | [] => []
  | [e] => e
  | e :: es => e ++ nullChar :: midJoin es

/-- A non-empty multi-string payload (entry+null blocks plus the final
terminator) is its interior join followed by two trailing nulls. -/
theorem flat_null_eq_midJoin (ss : List (List Char)) (h : ss ≠ []) :
    (ss.flatMap (fun e => e ++ [nullChar])) ++ [nullChar] =
      midJoin ss ++ [nullChar, nullChar] := by
  induction ss with
  | nil => exact absurd rfl h
  | cons e ss ih =>
    rcases ss with _ | ⟨e2, ss2⟩
    · simp [midJoin]
    · have hne : e2 :: ss2 ≠ [] := by simp
      simp only [List.flatMap_cons, midJoin, List.append_assoc] at ih ⊢
      rw [ih hne]
      simp

/-- The interior join of non-empty null-free entries does not end in a
null character. -/
theorem midJoin_getLast_ne {ss : List (List Char)} (hne : ss ≠ [])
    (h : ∀ e ∈ ss, e ≠ [] ∧ ∀ c ∈ e, c ≠ nullChar) :
    ∀ c, (midJoin ss).getLast? = some c → c ≠ nullChar := by
  induction ss with
  | nil => exact absurd rfl hne
  | cons e ss ih =>
    rcases ss with _ | ⟨e2, ss2⟩
    · intro c hc
      have he := h e (List.mem_cons_self e [])
      obtain ⟨hne2, hcl⟩ := List.mem_getLast?_eq_getLast (by rw [midJoin] at hc; exact hc)
      have : c ∈ e := hcl ▸ List.getLast_mem hne2
      exact he.2 c this
    · intro c hc
      have hne2 : e2 :: ss2 ≠ [] := by simp
      have hmj : midJoin (e :: e2 :: ss2) = e ++ nullChar :: midJoin (e2 :: ss2) := rfl
      rw [hmj] at hc
      have hlast : (e ++ nullChar :: midJoin (e2 :: ss2)).getLast? =
          (nullChar :: midJoin (e2 :: ss2)).getLast? := by
        rw [List.getLast?_append_of_ne_nil]
        simp
      rw [hlast] at hc
      rcases hmj2 : midJoin (e2 :: ss2) with _ | ⟨d, ds⟩
      · exfalso
        have he2 := h e2 (by simp)
        rcases hmj3 : e2 :: ss2 with _ | ⟨x, xs⟩
        · simp at hmj3
        · have : midJoin (e2 :: ss2) ≠ [] := by
            rcases ss2 with _ | ⟨y, ys⟩
            · simpa [midJoin] using he2.1
            · simp [midJoin]
          exact this hmj2
      · rw [hmj2] at hc
        have : (nullChar :: d :: ds).getLast? = (d :: ds).getLast? := rfl
        rw [this] at hc
        rw [← hmj2] at hc
        exact ih hne2 (fun x hx => h x (List.mem_cons_of_mem e hx)) c hc

/-- Splitting the interior join of null-free entries recovers them. -/
theorem splitOnNull_midJoin {ss : List (List Char)} (hne : ss ≠ [])
    (h : ∀ e ∈ ss, ∀ c ∈ e, c ≠ nullChar) :
    splitOnNull (midJoin ss) = ss := by
  induction ss with
  | nil => exact absurd rfl hne
  | cons e ss ih =>
    rcases ss with _ | ⟨e2, ss2⟩
    · exact splitOnNull_nullfree (h e (by simp))
    · have hmj : midJoin (e :: e2 :: ss2) = e ++ nullChar :: midJoin (e2 :: ss2) := rfl
      rw [hmj, splitOnNull_append_nullfree (h e (by simp)),
        splitOnNull_cons_null, ih (by simp) (fun x hx => h x (List.mem_cons_of_mem e hx))]
      simp

/-- Trimming absorbs two trailing null code units. -/
theorem trimTrailingNulls_append_two_nulls (cs : List Char) :
    trimTrailingNulls (cs ++ [nullChar, nullChar]) = trimTrailingNulls cs := by
  have : cs ++ [nullChar, nullChar] = (cs ++ [nullChar]) ++ [nullChar] := by simp
  rw [this, trimTrailingNulls_append_null, trimTrailingNulls_append_null]

/-- Lossy decoding maps a null code unit to the null character. -/
theorem utf16DecodeLossy_null (t : List Nat) :
    utf16DecodeLossy (0 :: t) = nullChar :: utf16DecodeLossy t := by
  rw [utf16DecodeLossy_cons_valid (by omega)]
  rfl

/-- Multi-string wire code units fit in 16 bits. -/
theorem encodeMulti_lt (ss : List String) : ∀ u ∈ encodeMulti ss, u < 65536 := by
  intro u hu
  simp only [encodeMulti, List.mem_append, List.mem_flatMap] at hu
  rcases hu with ⟨s, _, hu⟩ | hu
  · rcases hu with hu | hu
    · exact utf16Encode_lt s.data u hu
    · simp at hu
      omega
  · simp at hu
    omega

/-- Lossy decoding of a multi-string payload yields the entries, each
followed by a null, then the final terminating null. -/
theorem utf16DecodeLossy_encodeMulti (ss : List String) :
    utf16DecodeLossy (encodeMulti ss) =
      (ss.flatMap (fun s => s.data ++ [nullChar])) ++ [nullChar] := by
  induction ss with
  | nil => simp [encodeMulti, utf16DecodeLossy_null, utf16DecodeLossy, nullChar]
  | cons s ss ih =>
    simp only [encodeMulti, List.flatMap_cons, List.append_assoc] at ih ⊢
    rw [utf16DecodeLossy_encode]
    rw [show (([0] : List Nat) ++ ((ss.flatMap fun s => utf16Encode s.data ++ [0]) ++ [0]))
        = 0 :: ((ss.flatMap fun s => utf16Encode s.data ++ [0]) ++ [0]) from rfl]
    rw [utf16DecodeLossy_null, ih]
    simp

/-- Null-terminated text code units fit in 16 bits. -/
theorem to_utf16_lt (s : String) : ∀ u ∈ to_utf16 s, u < 65536 := by
  intro u hu
  simp only [to_utf16, List.mem_append] at hu
  rcases hu with hu | hu
  · exact utf16Encode_lt s.data u hu
  · simp at hu
    omega

/-- Rebuilding a string from its characters is the identity. -/
theorem asString_data (s : String) : s.data.asString = s := by
  cases s
  rfl

/-- The characters of a rebuilt string are the original list. -/
theorem data_asString (cs : List Char) : (cs.asString).data = cs := rfl

/-- Decoding the null-terminated wire form of a text whose last character
is not null recovers exactly its characters. -/
theorem decodeText_encodeText {s : String}
    (h : ∀ c, s.data.getLast? = some c → c ≠ nullChar) :
    decodeText (v16_to_v8 (to_utf16 s)) = .ok s.data := by
  have hlen : (v16_to_v8 (to_utf16 s)).length % 2 = 0 := by
    rw [length_v16_to_v8]
    omega
  simp only [decodeText, hlen]
  rw [if_neg (by omega)]
  rw [bytesToWords_v16_to_v8 _ (to_utf16_lt s)]
  simp only [to_utf16]
  rw [utf16DecodeLossy_encode]
  rw [show utf16DecodeLossy [0] = [nullChar] from utf16DecodeLossy_null []]
  rw [trimTrailingNulls_append_null, trimTrailingNulls_of_getLast_ne h]

/-- The interior join of a non-empty list of non-empty entries is
non-empty. -/
theorem midJoin_ne_nil {es : List (List Char)} (hne : es ≠ [])
    (h : ∀ e ∈ es, e ≠ []) : midJoin es ≠ [] := by
  rcases es with _ | ⟨e, es⟩
  · exact absurd rfl hne
  · rcases es with _ | ⟨e2, es2⟩
    · simpa [midJoin] using h e (by simp)
    · simp only [midJoin]
      simp

/-- Decoding a multi-string wire payload built from non-empty, null-free
entries recovers the entries. -/
theorem decodeText_encodeMulti {ss : List String}
    (h : ∀ s ∈ ss, s ≠ "" ∧ ∀ c ∈ s.data, c ≠ nullChar) :
    ∃ cs, decodeText (v16_to_v8 (encodeMulti ss)) = .ok cs ∧ decodeMulti cs = ss := by
  have hlen : (v16_to_v8 (encodeMulti ss)).length % 2 = 0 := by
    rw [length_v16_to_v8]
    omega
  simp only [decodeText]
  rw [if_neg (by omega)]
  rw [bytesToWords_v16_to_v8 _ (encodeMulti_lt ss)]
  rw [utf16DecodeLossy_encodeMulti]
  rcases hss : ss with _ | ⟨s1, ss1⟩
  · refine ⟨_, rfl, ?_⟩
    simp [trimTrailingNulls, decodeMulti, nullChar]
  · rw [← hss]
    have hne : ss ≠ [] := by rw [hss]; simp
    set es : List (List Char) := ss.map String.data with hes
    have hflat : ss.flatMap (fun s => s.data ++ [nullChar]) =
        es.flatMap (fun e => e ++ [nullChar]) := by
      rw [hes, List.flatMap_map]
    have hesne : es ≠ [] := by
      rw [hes]
      simpa using hne
    have hentry : ∀ e ∈ es, e ≠ [] ∧ ∀ c ∈ e, c ≠ nullChar := by
      intro e he
      rw [hes] at he
      obtain ⟨s, hs, rfl⟩ := List.mem_map.mp he
      obtain ⟨h1, h2⟩ := h s hs
      refine ⟨?_, h2⟩
      intro hd
      apply h1
      have := congrArg List.asString hd
      rwa [asString_data] at this
    rw [hflat, flat_null_eq_midJoin es hesne, trimTrailingNulls_append_two_nulls,
      trimTrailingNulls_of_getLast_ne (midJoin_getLast_ne hesne hentry)]
    refine ⟨_, rfl, ?_⟩
    have hjne : midJoin es ≠ [] := midJoin_ne_nil hesne (fun e he => (hentry e he).1)
    simp only [decodeMulti, List.isEmpty_iff]
    rw [if_neg hjne]
    rw [splitOnNull_midJoin hesne (fun e he => (hentry e he).2)]
    rw [hes, List.map_map]
    have : (List.asString ∘ String.data) = id := by
      funext s
      exact asString_data s
    rw [this, List.map_id]

/-- Variants the round-trip claim excludes: `Binary` and the three
resource-list kinds (opaque payloads). -/
def excludedFromRoundTrip : StronglyTypedRegistryData → Prop
  | .RegBinary _ => True
  | .RegResourceList _ => True
  | .RegFullResourceDescriptor _ => True
  | .RegResourceRequirementsList _ => True
  | _ => False

/-- Payload well-formedness under which the Raw-to-Typed round-trip holds:
text payloads do not end in a null character, multi-string entries are
non-empty and null-free, and integer payloads fit their wire width. -/
def wireSafe : StronglyTypedRegistryData → Prop
  | .RegSz s => ∀ c, s.data.getLast? = some c → c ≠ nullChar
  | .RegExpandSz s => ∀ c, s.data.getLast? = some c → c ≠ nullChar
  | .RegLink s => ∀ c, s.data.getLast? = some c → c ≠ nullChar
  | .RegMultiSz ss => ∀ s ∈ ss, s ≠ "" ∧ ∀ c ∈ s.data, c ≠ nullChar
  | .RegDwordLittleEndian n => n < 4294967296
  | .RegDwordBigEndian n => n < 4294967296
  | .RegQword n => n < 18446744073709551616
  | _ => True

/-- C1 (amended): for every TypedValue whose variant is not `Binary` or a
resource-list kind, whose text payloads do not end in a null character,
whose MultiSz entries are non-empty and null-free, and whose integer
payloads fit their wire width, decoding the RawValue produced by encoding
it yields the value back: `from_reg_value (to_reg_value v) = ok v`. -/
theorem decode_encode_roundtrip_wellformed (v : StronglyTypedRegistryData)
    (hex : ¬ excludedFromRoundTrip v) (hwf : wireSafe v) :
    StronglyTypedRegistryData.from_reg_value v.to_reg_value = .ok v := by
  cases v with
  | RegNone =>
    rfl
  | RegSz s =>
    have hwf2 : ∀ c, s.data.getLast? = some c → c ≠ nullChar := hwf
    show Except.map (fun cs => StronglyTypedRegistryData.RegSz cs.asString)
        (decodeText (v16_to_v8 (to_utf16 s))) = .ok (.RegSz s)
    rw [decodeText_encodeText hwf2]
    simp [Except.map, asString_data]
  | RegExpandSz s =>
    have hwf2 : ∀ c, s.data.getLast? = some c → c ≠ nullChar := hwf
    show Except.map (fun cs => StronglyTypedRegistryData.RegExpandSz cs.asString)
        (decodeText (v16_to_v8 (to_utf16 s))) = .ok (.RegExpandSz s)
    rw [decodeText_encodeText hwf2]
    simp [Except.map, asString_data]
  | RegBinary b =>
    exact absurd trivial hex
  | RegDwordLittleEndian n =>
    have hn : n < 256 ^ 4 := by
      have h4 : (256 : Nat) ^ 4 = 4294967296 := by norm_num
      rw [h4]
      exact hwf
    show (if (toLEBytes 4 n).length = 4 then
        Except.ok (StronglyTypedRegistryData.RegDwordLittleEndian (readLE (toLEBytes 4 n)))
      else Except.error RegError.malformedValue) = .ok (.RegDwordLittleEndian n)
    rw [if_pos (length_toLEBytes 4 n), readLE_toLEBytes 4 n hn]
  | RegDwordBigEndian n =>
    have hn : n < 256 ^ 4 := by
      have h4 : (256 : Nat) ^ 4 = 4294967296 := by norm_num
      rw [h4]
      exact hwf
    have hlen : (toBEBytes 4 n).length = 4 := by
      simp [toBEBytes, length_toLEBytes]
    show (if (toBEBytes 4 n).length = 4 then
        Except.ok (StronglyTypedRegistryData.RegDwordBigEndian (readBE (toBEBytes 4 n)))
      else Except.error RegError.malformedValue) = .ok (.RegDwordBigEndian n)
    rw [if_pos hlen, readBE_toBEBytes 4 n hn]
  | RegLink s =>
    have hwf2 : ∀ c, s.data.getLast? = some c → c ≠ nullChar := hwf
    show Except.map (fun cs => StronglyTypedRegistryData.RegLink cs.asString)
        (decodeText (v16_to_v8 (to_utf16 s))) = .ok (.RegLink s)
    rw [decodeText_encodeText hwf2]
    simp [Except.map, asString_data]
  | RegMultiSz ss =>
    have hwf2 : ∀ s ∈ ss, s ≠ "" ∧ ∀ c ∈ s.data, c ≠ nullChar := hwf
    obtain ⟨cs, hcs, hdm⟩ := decodeText_encodeMulti hwf2
    show Except.map (fun cs => StronglyTypedRegistryData.RegMultiSz (decodeMulti cs))
        (decodeText (v16_to_v8 (encodeMulti ss))) = .ok (.RegMultiSz ss)
    rw [hcs]
    simp [Except.map, hdm]
  | RegResourceList b =>
    exact absurd trivial hex
  | RegFullResourceDescriptor b =>
    exact absurd trivial hex
  | RegResourceRequirementsList b =>
    exact absurd trivial hex
  | RegQword n =>
    have hn : n < 256 ^ 8 := by
      have h8 : (256 : Nat) ^ 8 = 18446744073709551616 := by norm_num
      rw [h8]
      exact hwf
    show (if (toLEBytes 8 n).length = 8 then
        Except.ok (StronglyTypedRegistryData.RegQword (readLE (toLEBytes 8 n)))
      else Except.error RegError.malformedValue) = .ok (.RegQword n)
    rw [if_pos (length_toLEBytes 8 n), readLE_toLEBytes 8 n hn]

/-- C1 (counterexample): the claim as stated fails at the concrete input
`RegSz "\u0000"` — a payload ending in a null character — which is not one
of the claim's excluded cases yet decodes to `RegSz ""` rather than back
to itself. -/
theorem roundtrip_fails_on_trailing_null :
    StronglyTypedRegistryData.from_reg_value
        (StronglyTypedRegistryData.to_reg_value (.RegSz "\u0000")) =
      .ok (.RegSz "") ∧
    decide (StronglyTypedRegistryData.from_reg_value
        (StronglyTypedRegistryData.to_reg_value (.RegSz "\u0000")) =
      .ok (.RegSz "\u0000")) = false := by
  constructor
  · decide
  · decide

/-- C1 (witness): the amended round-trip theorem applied to the concrete
value `RegMultiSz ["a", "b"]`. -/
theorem decode_encode_roundtrip_wellformed_witness :
    StronglyTypedRegistryData.from_reg_value
        (StronglyTypedRegistryData.to_reg_value (.RegMultiSz ["a", "b"])) =
      .ok (.RegMultiSz ["a", "b"]) :=
  decode_encode_roundtrip_wellformed (.RegMultiSz ["a", "b"])
    (by intro h; exact h)
    (by
      show ∀ s ∈ ["a", "b"], s ≠ "" ∧ ∀ c ∈ s.data, c ≠ nullChar
      decide)

/-- C8: for every TypedValue variant, the numeric type tag returned by
`discriminant` is a fixed pure function of the variant alone — the
equalities hold for every payload — and equals the platform enumeration:
None=0, Sz=1, ExpandSz=2, Binary=3, DwordLittleEndian=4, DwordBigEndian=5,
Link=6, MultiSz=7, ResourceList=8, FullResourceDescriptor=9,
ResourceRequirementsList=10, Qword=11. -/
theorem discriminant_matches_platform_table :
    StronglyTypedRegistryData.RegNone.discriminant = 0 ∧
    (∀ s, (StronglyTypedRegistryData.RegSz s).discriminant = 1) ∧
    (∀ s, (StronglyTypedRegistryData.RegExpandSz s).discriminant = 2) ∧
    (∀ b, (StronglyTypedRegistryData.RegBinary b).discriminant = 3) ∧
    (∀ n, (StronglyTypedRegistryData.RegDwordLittleEndian n).discriminant = 4) ∧
    (∀ n, (StronglyTypedRegistryData.RegDwordBigEndian n).discriminant = 5) ∧
    (∀ s, (StronglyTypedRegistryData.RegLink s).discriminant = 6) ∧
    (∀ ss, (StronglyTypedRegistryData.RegMultiSz ss).discriminant = 7) ∧
    (∀ b, (StronglyTypedRegistryData.RegResourceList b).discriminant = 8) ∧
    (∀ b, (StronglyTypedRegistryData.RegFullResourceDescriptor b).discriminant = 9) ∧
    (∀ b, (StronglyTypedRegistryData.RegResourceRequirementsList b).discriminant = 10) ∧
    (∀ n, (StronglyTypedRegistryData.RegQword n).discriminant = 11) :=
  ⟨rfl, fun _ => rfl, fun _ => rfl, fun _ => rfl, fun _ => rfl, fun _ => rfl,
    fun _ => rfl, fun _ => rfl, fun _ => rfl, fun _ => rfl, fun _ => rfl,
    fun _ => rfl⟩

/-- C2 (code evaluated at the failing input): the integer adapters perform
no width validation at all — decoding tag `QWORD` with a 4-byte buffer does
not fail with `MalformedValue` but performs an unchecked (out-of-bounds)
read, and for the integer tags the adapters succeed on buffers of every
length. -/
theorem integer_decode_skips_width_validation :
    u64_from_reg_value { vtype := 11, bytes := [0, 0, 0, 0] } = .ok 0 ∧
    (∀ bs, (u64_from_reg_value { vtype := REG_QWORD, bytes := bs }).isOk = true) ∧
    (∀ bs, (u32_from_reg_value { vtype := REG_DWORD, bytes := bs }).isOk = true) := by
  refine ⟨by decide, ?_, ?_⟩
  · intro bs
    simp [u64_from_reg_value, Except.isOk, Except.toBool]
  · intro bs
    simp [u32_from_reg_value, Except.isOk, Except.toBool]

/-- C9: encoding `DwordLittleEndian 0x01020304` yields the bytes
[04,03,02,01] and `DwordBigEndian 0x01020304` yields [01,02,03,04]; the
`u32` adapter always emits exactly 4 bytes tagged `REG_DWORD`, in
little-endian order (reading them back little-endian recovers the value).
-/
theorem dword_encode_endianness :
    (StronglyTypedRegistryData.to_reg_value (.RegDwordLittleEndian 0x01020304)).bytes
      = [0x04, 0x03, 0x02, 0x01] ∧
    (StronglyTypedRegistryData.to_reg_value (.RegDwordBigEndian 0x01020304)).bytes
      = [0x01, 0x02, 0x03, 0x04] ∧
    (∀ n, (u32_to_reg_value n).vtype = REG_DWORD ∧
      (u32_to_reg_value n).bytes.length = 4) ∧
    (∀ n, n < 4294967296 → readLE (u32_to_reg_value n).bytes = n) := by
  refine ⟨by decide, by decide, ?_, ?_⟩
  · intro n
    exact ⟨rfl, length_toLEBytes 4 n⟩
  · intro n hn
    have hn2 : n < 256 ^ 4 := by norm_num; omega
    exact readLE_toLEBytes 4 n hn2

/-- C9 (witness): the little-endian read-back applied at the concrete
value 7. -/
theorem dword_encode_endianness_witness :
    readLE (u32_to_reg_value 7).bytes = 7 :=
  dword_encode_endianness.2.2.2 7 (by norm_num)

/-- C6: the `u32` adapter succeeds exactly on values encoded from
`DwordLittleEndian`; for every other variant — `DwordBigEndian` with the
same numeric value included — it fails with `TypeMismatch`. -/
theorem u32_adapter_accepts_only_dword_le :
    (∀ n, n < 4294967296 →
      u32_from_reg_value (StronglyTypedRegistryData.RegDwordLittleEndian n).to_reg_value
        = .ok n) ∧
    (∀ v : StronglyTypedRegistryData, (∀ n, v ≠ .RegDwordLittleEndian n) →
      u32_from_reg_value v.to_reg_value = .error .typeMismatch) ∧
    (∀ n, u32_from_reg_value (StronglyTypedRegistryData.RegDwordBigEndian n).to_reg_value
        = .error .typeMismatch) := by
  refine ⟨?_, ?_, ?_⟩
  · intro n hn
    have hn2 : n < 256 ^ 4 := by norm_num; omega
    simp only [StronglyTypedRegistryData.to_reg_value,
      StronglyTypedRegistryData.discriminant, u32_from_reg_value, REG_DWORD]
    rw [if_pos trivial]
    rw [List.take_of_length_le (by rw [length_toLEBytes])]
    rw [readLE_toLEBytes 4 n hn2]
  · intro v hv
    cases v with
    | RegDwordLittleEndian n => exact absurd rfl (hv n)
    | RegNone => rfl
    | RegSz s => rfl
    | RegExpandSz s => rfl
    | RegBinary b => rfl
    | RegDwordBigEndian n => rfl
    | RegLink s => rfl
    | RegMultiSz ss => rfl
    | RegResourceList b => rfl
    | RegFullResourceDescriptor b => rfl
    | RegResourceRequirementsList b => rfl
    | RegQword n => rfl
  · intro n
    rfl

/-- C6 (witness): the adapter applied at the concrete value 9 under both
endianness variants. -/
theorem u32_adapter_accepts_only_dword_le_witness :
    u32_from_reg_value (StronglyTypedRegistryData.RegDwordLittleEndian 9).to_reg_value
      = .ok 9 ∧
    u32_from_reg_value (StronglyTypedRegistryData.RegDwordBigEndian 9).to_reg_value
      = .error .typeMismatch :=
  ⟨u32_adapter_accepts_only_dword_le.1 9 (by norm_num),
    u32_adapter_accepts_only_dword_le.2.1 (.RegDwordBigEndian 9) (fun n h => by
      exact StronglyTypedRegistryData.noConfusion h)⟩

/-- Re-serializing the code units paired from an even-length byte buffer
recovers the buffer exactly. -/
theorem v16_to_v8_bytesToWords :
    ∀ bs : List Nat, (∀ b ∈ bs, b < 256) → bs.length % 2 = 0 →
      v16_to_v8 (bytesToWords bs) = bs
  | [], _, _ => rfl
  | [b], _, h => by simp at h
  | b0 :: b1 :: rest, hb, h => by
    have hb0 : b0 < 256 := hb b0 (by simp)
    have hb1 : b1 < 256 := hb b1 (by simp)
    have hrec := v16_to_v8_bytesToWords rest
      (fun x hx => hb x (by simp [hx])) (by simp at h; omega)
    simp only [bytesToWords, v16_to_v8, List.flatMap_cons] at hrec ⊢
    rw [hrec]
    have e0 : (b0 + 256 * b1) % 256 = b0 := by omega
    have e1 : (b0 + 256 * b1) / 256 = b1 := by omega
    rw [e0, e1]
    rfl

/-- C7: encoding text converts it to UTF-16 code units and appends exactly
one trailing null code unit, tagged `REG_SZ`, identically for `String` and
`&str`; the `&OsStr` adapter emits the wide units as they are — no
trailing null — still tagged `REG_SZ`. -/
theorem text_encode_null_termination :
    (∀ s : String, (string_to_reg_value s).vtype = REG_SZ ∧
      bytesToWords (string_to_reg_value s).bytes = utf16Encode s.data ++ [0]) ∧
    (∀ s : String, str_to_reg_value s = string_to_reg_value s) ∧
    (∀ w : List Nat, (∀ u ∈ w, u < 65536) →
      (osstr_to_reg_value w).vtype = REG_SZ ∧
      bytesToWords (osstr_to_reg_value w).bytes = w) := by
  refine ⟨?_, fun s => rfl, ?_⟩
  · intro s
    refine ⟨rfl, ?_⟩
    show bytesToWords (v16_to_v8 (to_utf16 s)) = utf16Encode s.data ++ [0]
    rw [bytesToWords_v16_to_v8 _ (to_utf16_lt s)]
    rfl
  · intro w hw
    refine ⟨rfl, ?_⟩
    show bytesToWords (v16_to_v8 w) = w
    exact bytesToWords_v16_to_v8 w hw

/-- C7 (witness): the encode adapters applied at the text `"ab"` and the
wide unit sequence `[97, 0, 98]`. -/
theorem text_encode_null_termination_witness :
    bytesToWords (string_to_reg_value "ab").bytes = utf16Encode "ab".data ++ [0] ∧
    bytesToWords (osstr_to_reg_value [97, 0, 98]).bytes = [97, 0, 98] :=
  ⟨(text_encode_null_termination.1 "ab").2,
    (text_encode_null_termination.2.2 [97, 0, 98] (by decide)).2⟩

/-- C10: for every RawValue tagged `Sz`, `ExpandSz` or `MultiSz` with even
byte length, the `OsString` adapter returns exactly the stored 16-bit code
units — re-serializing them gives back the byte buffer unchanged, so no
trailing null is trimmed and no null is substituted. -/
theorem osstring_decode_preserves_code_units :
    ∀ val : RegValue,
      (val.vtype = REG_SZ ∨ val.vtype = REG_EXPAND_SZ ∨ val.vtype = REG_MULTI_SZ) →
      (∀ b ∈ val.bytes, b < 256) → val.bytes.length % 2 = 0 →
      osstring_from_reg_value val = .ok (bytesToWords val.bytes) ∧
      v16_to_v8 (bytesToWords val.bytes) = val.bytes := by
  intro val htag hb hlen
  refine ⟨?_, v16_to_v8_bytesToWords val.bytes hb hlen⟩
  simp only [osstring_from_reg_value]
  rw [if_pos htag]

/-- C10 (witness): the `OsString` adapter applied at an `Sz` payload with
an embedded and a trailing null code unit. -/
theorem osstring_decode_preserves_code_units_witness :
    osstring_from_reg_value { vtype := 1, bytes := [97, 0, 0, 0, 98, 0] }
      = .ok [97, 0, 98] ∧
    v16_to_v8 (bytesToWords ([97, 0, 0, 0, 98, 0] : List Nat)) = [97, 0, 0, 0, 98, 0] := by
  have h := osstring_decode_preserves_code_units { vtype := 1, bytes := [97, 0, 0, 0, 98, 0] }
    (Or.inl rfl) (by decide) (by decide)
  exact ⟨by rw [h.1]; rfl, h.2⟩

/-- The head surviving a null-dropWhile is not null. -/
theorem head_dropWhileNull {l : List Char} {c : Char}
    (h : (l.dropWhile (· == nullChar)).head? = some c) : c ≠ nullChar := by
  induction l with
  | nil => simp [List.dropWhile] at h
  | cons a t ih =>
    rw [List.dropWhile_cons] at h
    by_cases ha : a = nullChar
    · rw [if_pos (by simpa using ha)] at h
      exact ih h
    · rw [if_neg (by simpa using ha)] at h
      simp at h
      rw [← h]
      exact ha

/-- A trimmed sequence never ends in a null character. -/
theorem trimTrailingNulls_getLast_ne (cs : List Char) :
    ∀ c, (trimTrailingNulls cs).getLast? = some c → c ≠ nullChar := by
  intro c hc
  simp only [trimTrailingNulls, List.getLast?_reverse] at hc
  exact head_dropWhileNull hc

/-- A null-free sequence does not end in a null character. -/
theorem nullfree_getLast_ne {cs : List Char} (h : ∀ c ∈ cs, c ≠ nullChar) :
    ∀ c, cs.getLast? = some c → c ≠ nullChar := by
  intro c hc
  obtain ⟨hne, hcl⟩ := List.mem_getLast?_eq_getLast hc
  exact h c (hcl ▸ List.getLast_mem hne)

/-- The `String` adapter succeeds on every value carrying one of the three
string tags, whatever the byte buffer. -/
theorem string_from_string_kind_isOk (val : RegValue)
    (h : val.vtype = REG_SZ ∨ val.vtype = REG_EXPAND_SZ ∨ val.vtype = REG_MULTI_SZ) :
    (string_from_reg_value val).isOk = true := by
  simp only [string_from_reg_value]
  rw [if_pos h]
  by_cases h7 : val.vtype = REG_MULTI_SZ
  · rw [if_pos h7]
    rfl
  · rw [if_neg h7]
    rfl

/-- C3 (counterexample): decoding an `Sz` value with the odd-length buffer
[65, 0, 65] succeeds with "A" — the trailing odd byte is silently ignored —
contradicting the claim that odd length fails with `MalformedValue`. -/
theorem string_decode_ignores_odd_trailing_byte :
    string_from_reg_value { vtype := 1, bytes := [65, 0, 65] } = .ok "A" := by
  decide

/-- C3 (amended): decoding a string-tagged RawValue into text never fails,
whatever the buffer length — an odd trailing byte is ignored by the
`len / 2` reinterpretation — and invalid UTF-16 sequences are replaced by
U+FFFD rather than causing failure (shown at a lone high surrogate). -/
theorem string_decode_never_fails_on_parity :
    (∀ val : RegValue,
      (val.vtype = REG_SZ ∨ val.vtype = REG_EXPAND_SZ ∨ val.vtype = REG_MULTI_SZ) →
      (string_from_reg_value val).isOk = true) ∧
    string_from_reg_value { vtype := 1, bytes := v16_to_v8 [0xD800] }
      = .ok [replacementChar].asString := by
  refine ⟨string_from_string_kind_isOk, by decide⟩

/-- C3 (witness): the amended theorem applied at a one-byte `Sz` buffer. -/
theorem string_decode_never_fails_on_parity_witness :
    (string_from_reg_value { vtype := 1, bytes := [65] }).isOk = true :=
  string_decode_never_fails_on_parity.1 { vtype := 1, bytes := [65] } (Or.inl rfl)

/-- C4 (counterexample): the even-length `Sz` payload with code units
[97, 0, 98] (and one trailing null) decodes to "a\0b" — the decoded text
of a non-MultiSz value contains an embedded null, contradicting the
claim's no-embedded-nulls conjunct. -/
theorem sz_decode_keeps_embedded_null :
    string_from_reg_value { vtype := 1, bytes := [97, 0, 0, 0, 98, 0] }
      = .ok "a\u0000b" ∧
    nullChar ∈ ("a\u0000b" : String).data :=
  ⟨by decide, by decide⟩

/-- C4 (amended): decoding an `Sz` payload trims all trailing U+0000 code
units (a null-free text followed by three trailing null units decodes with
all three removed), and the decoded text never ends in a null — but
embedded, non-trailing nulls are preserved for `Sz`/`ExpandSz` (only
`MultiSz` replaces them, with newlines). -/
theorem sz_decode_trims_all_trailing_nulls :
    (∀ cs : List Char, (∀ c ∈ cs, c ≠ nullChar) →
      string_from_reg_value
          { vtype := REG_SZ, bytes := v16_to_v8 (utf16Encode cs ++ [0, 0, 0]) }
        = .ok cs.asString) ∧
    (∀ val : RegValue, ∀ s : String,
      (val.vtype = REG_SZ ∨ val.vtype = REG_EXPAND_SZ ∨ val.vtype = REG_MULTI_SZ) →
      string_from_reg_value val = .ok s →
      ∀ c, s.data.getLast? = some c → c ≠ nullChar) := by
  constructor
  · intro cs hcs
    have hbound : ∀ u ∈ utf16Encode cs ++ [0, 0, 0], u < 65536 := by
      intro u hu
      rcases List.mem_append.mp hu with hu | hu
      · exact utf16Encode_lt cs u hu
      · simp at hu
        omega
    simp only [string_from_reg_value]
    rw [if_pos (Or.inl trivial), if_neg (by decide)]
    rw [bytesToWords_v16_to_v8 _ hbound]
    rw [utf16DecodeLossy_encode]
    rw [show utf16DecodeLossy [0, 0, 0] = [nullChar, nullChar, nullChar] by
      rw [utf16DecodeLossy_null, utf16DecodeLossy_null,
        show utf16DecodeLossy [0] = [nullChar] from utf16DecodeLossy_null []]]
    rw [show cs ++ [nullChar, nullChar, nullChar]
        = ((cs ++ [nullChar]) ++ [nullChar]) ++ [nullChar] by simp]
    rw [trimTrailingNulls_append_null, trimTrailingNulls_append_null,
      trimTrailingNulls_append_null,
      trimTrailingNulls_of_getLast_ne (nullfree_getLast_ne hcs)]
  · intro val s htag hok c hc
    simp only [string_from_reg_value] at hok
    rw [if_pos htag] at hok
    by_cases h7 : val.vtype = REG_MULTI_SZ
    · rw [if_pos h7] at hok
      have hs := (Except.ok.injEq _ _).mp hok
      have hdata : s.data =
          (trimTrailingNulls (utf16DecodeLossy (bytesToWords val.bytes))).map
            (fun c => if c = nullChar then Char.ofNat 10 else c) := by
        rw [← hs]
        rfl
      rw [hdata] at hc
      have hmem : c ∈ (trimTrailingNulls (utf16DecodeLossy (bytesToWords val.bytes))).map
          (fun c => if c = nullChar then Char.ofNat 10 else c) := by
        obtain ⟨hne, hcl⟩ := List.mem_getLast?_eq_getLast hc
        exact hcl ▸ List.getLast_mem hne
      obtain ⟨x, _, hx⟩ := List.mem_map.mp hmem
      rw [← hx]
      by_cases hxn : x = nullChar
      · rw [if_pos hxn]
        decide
      · rw [if_neg hxn]
        exact hxn
    · rw [if_neg h7] at hok
      have hs := (Except.ok.injEq _ _).mp hok
      have hdata : s.data =
          trimTrailingNulls (utf16DecodeLossy (bytesToWords val.bytes)) := by
        rw [← hs]
        rfl
      rw [hdata] at hc
      exact trimTrailingNulls_getLast_ne _ c hc

/-- C4 (witness): the amended theorem applied at the text ['a'] with three
trailing nulls, and at the decoded value "a". -/
theorem sz_decode_trims_all_trailing_nulls_witness :
    string_from_reg_value
        { vtype := REG_SZ, bytes := v16_to_v8 (utf16Encode ['a'] ++ [0, 0, 0]) }
      = .ok (['a'].asString) ∧
    ('a' : Char) ≠ nullChar :=
  ⟨sz_decode_trims_all_trailing_nulls.1 ['a'] (by decide),
    sz_decode_trims_all_trailing_nulls.2 { vtype := 1, bytes := [97, 0] } "a"
      (Or.inl rfl) (by decide) 'a' (by decide)⟩

/-- Unfolding of list intercalation at two or more pieces. -/
theorem intercalate_cons_cons {α : Type} (sep x y : List α) (zs : List (List α)) :
    List.intercalate sep (x :: y :: zs)
      = x ++ sep ++ List.intercalate sep (y :: zs) := by
  simp [List.intercalate, List.intersperse]

/-- Intercalation of a single piece is that piece. -/
theorem intercalate_single {α : Type} (sep x : List α) :
    List.intercalate sep [x] = x := by
  simp [List.intercalate]

/-- The null-to-newline substitution is the identity on null-free text. -/
theorem map_nullToNL_nullfree {e : List Char} (he : ∀ c ∈ e, c ≠ nullChar) :
    e.map (fun c => if c = nullChar then Char.ofNat 10 else c) = e := by
  have : e.map (fun c => if c = nullChar then Char.ofNat 10 else c) = e.map id :=
    List.map_congr_left (fun a ha => by simp [he a ha])
  rw [this, List.map_id]

/-- Substituting newlines for the nulls of the interior join of null-free
entries produces their newline intercalation. -/
theorem map_nullToNL_midJoin {es : List (List Char)}
    (h : ∀ e ∈ es, ∀ c ∈ e, c ≠ nullChar) :
    (midJoin es).map (fun c => if c = nullChar then Char.ofNat 10 else c)
      = List.intercalate [Char.ofNat 10] es := by
  induction es with
  | nil => rfl
  | cons e es ih =>
    rcases es with _ | ⟨e2, es2⟩
    · rw [show midJoin [e] = e from rfl, intercalate_single]
      exact map_nullToNL_nullfree (h e (by simp))
    · rw [show midJoin (e :: e2 :: es2) = e ++ nullChar :: midJoin (e2 :: es2) from rfl]
      rw [List.map_append, List.map_cons]
      rw [map_nullToNL_nullfree (h e (by simp)),
        ih (fun x hx => h x (List.mem_cons_of_mem e hx))]
      rw [intercalate_cons_cons]
      simp

/-- Character content of the intercalation accumulator loop. -/
theorem string_intercalate_go_data (sep : String) :
    ∀ (as : List String) (acc : String),
      (String.intercalate.go acc sep as).data
        = acc.data ++ as.flatMap (fun a => sep.data ++ a.data)
  | [], acc => by simp [String.intercalate.go]
  | a :: as, acc => by
    rw [show String.intercalate.go acc sep (a :: as)
        = String.intercalate.go (acc ++ sep ++ a) sep as from rfl]
    rw [string_intercalate_go_data sep as (acc ++ sep ++ a)]
    simp [String.data_append]

/-- Intercalation as a flat map over the tail pieces. -/
theorem intercalate_eq_flatMap {α : Type} (sep x : List α) (xs : List (List α)) :
    List.intercalate sep (x :: xs) = x ++ xs.flatMap (fun y => sep ++ y) := by
  induction xs generalizing x with
  | nil => simp [intercalate_single]
  | cons y ys ih =>
    rw [intercalate_cons_cons, ih y, List.flatMap_cons]
    simp

/-- String intercalation agrees with list intercalation of the character
contents. -/
theorem string_intercalate_data (sep : String) (ss : List String) :
    (String.intercalate sep ss).data
      = List.intercalate sep.data (ss.map String.data) := by
  rcases ss with _ | ⟨s, ss⟩
  · rfl
  · rw [show String.intercalate sep (s :: ss) = String.intercalate.go s sep ss from rfl]
    rw [string_intercalate_go_data]
    rw [List.map_cons, intercalate_eq_flatMap, List.flatMap_map]

/-- The `String` adapter decodes an encoded MultiSz with non-empty,
null-free entries to their newline-separated join. -/
theorem string_adapter_multisz {ss : List String}
    (h : ∀ s ∈ ss, s ≠ "" ∧ ∀ c ∈ s.data, c ≠ nullChar) :
    string_from_reg_value (StronglyTypedRegistryData.RegMultiSz ss).to_reg_value
      = .ok (String.intercalate "\n" ss) := by
  simp only [StronglyTypedRegistryData.to_reg_value,
    StronglyTypedRegistryData.discriminant, string_from_reg_value]
  rw [if_pos (by right; right; trivial), if_pos trivial]
  rw [bytesToWords_v16_to_v8 _ (encodeMulti_lt ss), utf16DecodeLossy_encodeMulti]
  rcases hss : ss with _ | ⟨s1, ss1⟩
  · decide
  · rw [← hss]
    have hne : ss ≠ [] := by rw [hss]; simp
    set es : List (List Char) := ss.map String.data with hes
    have hflat : ss.flatMap (fun s => s.data ++ [nullChar])
        = es.flatMap (fun e => e ++ [nullChar]) := by
      rw [hes, List.flatMap_map]
    have hesne : es ≠ [] := by
      rw [hes]
      simpa using hne
    have hentry : ∀ e ∈ es, e ≠ [] ∧ ∀ c ∈ e, c ≠ nullChar := by
      intro e he
      rw [hes] at he
      obtain ⟨s, hs, rfl⟩ := List.mem_map.mp he
      obtain ⟨h1, h2⟩ := h s hs
      refine ⟨?_, h2⟩
      intro hd
      apply h1
      have := congrArg List.asString hd
      rwa [asString_data] at this
    rw [hflat, flat_null_eq_midJoin es hesne, trimTrailingNulls_append_two_nulls,
      trimTrailingNulls_of_getLast_ne (midJoin_getLast_ne hesne hentry),
      map_nullToNL_midJoin (fun e he => (hentry e he).2)]
    have hnl : (String.intercalate "\n" ss).data = List.intercalate [Char.ofNat 10] es := by
      rw [string_intercalate_data, hes]
    rw [show String.intercalate "\n" ss = (List.intercalate [Char.ofNat 10] es).asString by
      rw [← hnl, asString_data]]

/-- C5: projecting a TypedValue through the `String` adapter succeeds for
the variants `Sz`, `ExpandSz` and `MultiSz` — with MultiSz entries (when
non-empty and null-free) rejoined using a newline separator between them —
and fails with `TypeMismatch` for every other variant. -/
theorem string_adapter_accepts_exactly_string_kinds :
    (∀ s, (string_from_reg_value
      (StronglyTypedRegistryData.RegSz s).to_reg_value).isOk = true) ∧
    (∀ s, (string_from_reg_value
      (StronglyTypedRegistryData.RegExpandSz s).to_reg_value).isOk = true) ∧
    (∀ ss, (string_from_reg_value
      (StronglyTypedRegistryData.RegMultiSz ss).to_reg_value).isOk = true) ∧
    (∀ v : StronglyTypedRegistryData,
      (∀ s, v ≠ .RegSz s) → (∀ s, v ≠ .RegExpandSz s) → (∀ ss, v ≠ .RegMultiSz ss) →
      string_from_reg_value v.to_reg_value = .error .typeMismatch) ∧
    (∀ ss, (∀ s ∈ ss, s ≠ "" ∧ ∀ c ∈ s.data, c ≠ nullChar) →
      string_from_reg_value (StronglyTypedRegistryData.RegMultiSz ss).to_reg_value
        = .ok (String.intercalate "\n" ss)) := by
  refine ⟨?_, ?_, ?_, ?_, fun ss h => string_adapter_multisz h⟩
  · intro s
    exact string_from_string_kind_isOk _ (Or.inl rfl)
  · intro s
    exact string_from_string_kind_isOk _ (Or.inr (Or.inl rfl))
  · intro ss
    exact string_from_string_kind_isOk _ (Or.inr (Or.inr rfl))
  · intro v h1 h2 h3
    cases v with
    | RegSz s => exact absurd rfl (h1 s)
    | RegExpandSz s => exact absurd rfl (h2 s)
    | RegMultiSz ss => exact absurd rfl (h3 ss)
    | RegNone => rfl
    | RegBinary b => rfl
    | RegDwordLittleEndian n => rfl
    | RegDwordBigEndian n => rfl
    | RegLink s => rfl
    | RegResourceList b => rfl
    | RegFullResourceDescriptor b => rfl
    | RegResourceRequirementsList b => rfl
    | RegQword n => rfl

/-- C5 (witness): the adapter applied at `RegSz "hi"`, at `RegQword 5`,
and at `RegMultiSz ["a", "b"]`. -/
theorem string_adapter_accepts_exactly_string_kinds_witness :
    (string_from_reg_value
      (StronglyTypedRegistryData.RegSz "hi").to_reg_value).isOk = true ∧
    string_from_reg_value (StronglyTypedRegistryData.RegQword 5).to_reg_value
      = .error .typeMismatch ∧
    string_from_reg_value (StronglyTypedRegistryData.RegMultiSz ["a", "b"]).to_reg_value
      = .ok (String.intercalate "\n" ["a", "b"]) :=
  ⟨string_adapter_accepts_exactly_string_kinds.1 "hi",
    string_adapter_accepts_exactly_string_kinds.2.2.2.1 (.RegQword 5)
      (fun s h => StronglyTypedRegistryData.noConfusion h)
      (fun s h => StronglyTypedRegistryData.noConfusion h)
      (fun ss h => StronglyTypedRegistryData.noConfusion h),
    string_adapter_accepts_exactly_string_kinds.2.2.2.2 ["a", "b"] (by decide)⟩
